import Mathlib

/-!
Verification of the chgpt-api automation core against its design notes.

Strings of the Python source are modelled as `List Char`; Python integers as
`Nat`; fallible operations as `Except`/`Option`; the browser environment
(element probes, text reads) as explicit input records so that the pure
decision logic of the source can be stated and proved.  Each definition below
names the source function it embeds.
-/

/-- Char-list model of Python `str.startswith` used to locate separator
occurrences: `startsWith pat xs` is true when `pat` is an initial segment of
`xs`. -/
def startsWith : List Char → List Char → Bool
  | [], _ => true
  | _ :: _, [] => false
  | a :: as, b :: bs => a == b && startsWith as bs

/-- Fuel-driven worker for Python `str.split(sep)` (non-overlapping
left-to-right scan).  Each step consumes at least one character, so running it
with fuel equal to the length of the input reproduces the Python behaviour
exactly; the fuel-zero fallback only triggers on empty remaining input there. -/
def splitOnFuel (sep : List Char) : Nat → List Char → List Char → List (List Char)
  | 0, xs, acc => [acc.reverse ++ xs]
  | _ + 1, [], acc => [acc.reverse]
  | fuel + 1, c :: rest, acc =>
    if startsWith sep (c :: rest) then
      acc.reverse :: splitOnFuel sep fuel (List.drop sep.length (c :: rest)) []
    else
      splitOnFuel sep fuel rest (c :: acc)

/-- Python `xs.split(sep)` for a non-empty separator, as used by
`_send_message_with_smart_chunking` (`message.split("\n\n")`) and the
sentence split (`current_chunk.split(". ")`). -/
def splitOnL (sep : List Char) (xs : List Char) : List (List Char) :=
  splitOnFuel sep xs.length xs []

/-- Joining a list of segments with a separator between consecutive segments
(Python `sep.join`). -/
def joinSep (sep : List Char) : List (List Char) → List Char
  | [] => []
  | [x] => x
  | x :: y :: rest => x ++ sep ++ joinSep sep (y :: rest)

/-- Joining where every segment is preceded by the separator. -/
def joinAll (sep : List Char) (l : List (List Char)) : List Char :=
  l.foldr (fun x acc => sep ++ x ++ acc) []

/-- The paragraph separator of `_send_message_with_smart_chunking`: a blank
line. -/
def parSep : List Char := ['\n', '\n']

/-- The sentence separator of `_split_sentences`. -/
def sentSep : List Char := ['.', ' ']

/-- `max_chunk_size` of `_send_message_with_smart_chunking`
(src/drivers/__init__.py line 527). -/
def maxChunkSize : Nat := 3500

/-- Loop body of `_split_sentences` (src/drivers/__init__.py lines 598-617):
state is the accumulated chunk list and the current chunk; the final flush
appends a non-empty current chunk. -/
def splitSentencesGo (maxSize : Nat) : List (List Char) → List (List Char) → List Char → List (List Char)
  | [], chunks, current => if current = [] then chunks else chunks ++ [current]
  | s :: rest, chunks, current =>
    if (current ++ s).length ≤ maxSize then
      splitSentencesGo maxSize rest chunks (if current = [] then s else current ++ sentSep ++ s)
    else
      splitSentencesGo maxSize rest (if current = [] then chunks else chunks ++ [current]) s

/-- `_split_sentences(sentences, max_size)`. -/
def split_sentences (sentences : List (List Char)) (maxSize : Nat) : List (List Char) :=
  splitSentencesGo maxSize sentences [] []

/-- Loop body of `_send_message_with_smart_chunking` (src/drivers/__init__.py
lines 530-552): paragraph packing with sentence-level fallback for oversized
paragraphs. -/
def smartChunkGo : List (List Char) → List (List Char) → List Char → List (List Char)
  | [], chunks, current => if current = [] then chunks else chunks ++ [current]
  | p :: rest, chunks, current =>
    if (current ++ p).length ≤ maxChunkSize then
      smartChunkGo rest chunks (if current = [] then p else current ++ parSep ++ p)
    else
      if maxChunkSize < p.length then
        smartChunkGo rest
          ((if current = [] then chunks else chunks ++ [current]) ++
            split_sentences (splitOnL sentSep p) maxChunkSize) []
      else
        smartChunkGo rest (if current = [] then chunks else chunks ++ [current]) p

/-- The chunk list produced by `_send_message_with_smart_chunking` for a
message (the chunks are then sent in order with `send_keys`). -/
def smart_chunks (message : List Char) : List (List Char) :=
  smartChunkGo (splitOnL parSep message) [] []

/-- A chunk paired with the separator that preceded it in the original text
(empty for the first chunk).  Flattening restores separators in place. -/
def flattenTagged (l : List (List Char × List Char)) : List Char :=
  l.foldr (fun p acc => p.1 ++ p.2 ++ acc) []

/-- Well-formed tag lists: the first chunk carries no separator, every later
chunk is preceded by either the paragraph or the sentence separator. -/
def SepTagsOK : List (List Char) → Prop
  | [] => True
  | t :: rest => t = [] ∧ ∀ u ∈ rest, u = parSep ∨ u = sentSep

/-- `Reassembles cs t` states that the chunk list `cs` can be reassembled into
the text `t` by inserting, between consecutive chunks, the separator each
chunk was split off at (paragraph or sentence separator). -/
def Reassembles (cs : List (List Char)) (t : List Char) : Prop :=
  ∃ l : List (List Char × List Char),
    l.map Prod.snd = cs ∧ SepTagsOK (l.map Prod.fst) ∧ flattenTagged l = t

/-- Separator tag for a chunk opened while `tagged` chunks were already
emitted: the first chunk of the whole run carries no separator, any later one
was cut at a paragraph boundary. -/
def newTag (tagged : List (List Char × List Char)) : List Char :=
  if tagged = [] then [] else parSep

/-- Tags a sentence-split chunk list: the first chunk keeps the supplied
(paragraph-boundary) tag, the rest were cut at sentence boundaries. -/
def tagSent (first : List Char) : List (List Char) → List (List Char × List Char)
  | [] => []
  | c :: cs => (first, c) :: cs.map (fun d => (sentSep, d))

/-- The final flush of the chunking loop, on separator-tagged chunks. -/
def emitT (chunksT : List (List Char × List Char)) (ctag current : List Char) :
    List (List Char × List Char) :=
  if current = [] then chunksT else chunksT ++ [(ctag, current)]

/-- Instrumented copy of `smartChunkGo` that records, for every chunk, the
separator it was split off at.  Its second projection is proved equal to
`smartChunkGo`. -/
def smartChunkGoT : List (List Char) → List (List Char × List Char) → List Char → List Char →
    List (List Char × List Char)
  | [], chunksT, ctag, current => emitT chunksT ctag current
  | p :: rest, chunksT, ctag, current =>
    if (current ++ p).length ≤ maxChunkSize then
      if current = [] then
        smartChunkGoT rest chunksT (newTag chunksT) p
      else
        smartChunkGoT rest chunksT ctag (current ++ parSep ++ p)
    else
      if maxChunkSize < p.length then
        smartChunkGoT rest
          (emitT chunksT ctag current ++
            tagSent (newTag (emitT chunksT ctag current))
              (split_sentences (splitOnL sentSep p) maxChunkSize)) [] []
      else
        smartChunkGoT rest (emitT chunksT ctag current) parSep p

/-- Separator-tagged version of `smart_chunks`. -/
def smart_chunksT (message : List Char) : List (List Char × List Char) :=
  smartChunkGoT (splitOnL parSep message) [] [] []

/-- A paragraph the smart-chunking loop handles without losing characters:
non-empty, and if oversized, all of its sentence segments are non-empty. -/
def GoodPar (p : List Char) : Prop :=
  p ≠ [] ∧ (maxChunkSize < p.length → ∀ s ∈ splitOnL sentSep p, s ≠ [])

/-- Default of `settings.safe_send_limit` (src/config/__init__.py line 33),
also the fallback default in `_select_send_strategy`. -/
def safe_send_limit : Nat := 150

/-- `_select_send_strategy(message_length)` (src/drivers/__init__.py lines
449-458), with the configured safe limit made explicit. -/
def select_send_strategy (safe_limit : Nat) (message_length : Nat) : String :=
  if message_length ≤ safe_limit then "safe_single"
  else if message_length ≤ 4000 then "try_single_fallback_chunk"
  else "smart_chunking"

/-- Orders the three delivery strategies by the length band that selects them,
to state monotonicity. -/
def strategyRank (s : String) : Nat :=
  if s = "safe_single" then 0
  else if s = "try_single_fallback_chunk" then 1
  else 2

/-- Failure kinds distinguished by `safe_element_operation`: the retried
`StaleElementReferenceException` versus any other exception; the payload
stands for the exception identity so re-raising unchanged is observable. -/
inductive ExKind where
  | staleRef (code : Nat)
  | otherErr (code : Nat)
deriving DecidableEq

/-- Outcome of one invocation of the wrapped operation: a return value, or a
raised exception. -/
inductive OpResult where
  | ok (v : Nat)
  | exn (e : ExKind)
deriving DecidableEq

/-- The retry loop of `safe_element_operation` (src/drivers/__init__.py lines
1206-1246).  `remaining` counts the retries still allowed (Python
`max_retries - attempt`): a stale failure with retries left sleeps and
retries; with none left the last stale failure is re-raised; any other
exception propagates immediately. -/
def seoRun (op : Nat → OpResult) : Nat → Nat → Except ExKind Nat
  | remaining, attempt =>
    match op attempt with
    | OpResult.ok v => Except.ok v
    | OpResult.exn (ExKind.otherErr m) => Except.error (ExKind.otherErr m)
    | OpResult.exn (ExKind.staleRef m) =>
      match remaining with
      | r + 1 => seoRun op r (attempt + 1)
      | 0 => Except.error (ExKind.staleRef m)

/-- `safe_element_operation(operation, max_retries, retry_delay)`: runs the
operation up to `maxRetries + 1` times. -/
def safe_element_operation (op : Nat → OpResult) (maxRetries : Nat) : Except ExKind Nat :=
  seoRun op maxRetries 0

/-- Observable events of the retry loop: invoking the operation at a given
attempt index, and the `time.sleep(retry_delay)` between stale retries. -/
inductive SeoEv where
  | invoke (attempt : Nat)
  | sleepEv
deriving DecidableEq

/-- Event trace of `safe_element_operation`: which attempts invoke the
operation and where the retry delay is slept. -/
def seoTrace (op : Nat → OpResult) : Nat → Nat → List SeoEv
  | 0, attempt => [SeoEv.invoke attempt]
  | r + 1, attempt =>
    match op attempt with
    | OpResult.ok _ => [SeoEv.invoke attempt]
    | OpResult.exn (ExKind.otherErr _) => [SeoEv.invoke attempt]
    | OpResult.exn (ExKind.staleRef _) =>
      SeoEv.invoke attempt :: SeoEv.sleepEv :: seoTrace op r (attempt + 1)

/-- The trace of a run that retries `j` times after stale failures starting at
attempt `a` and then stops at attempt `a + j`: every retry is preceded by one
sleep. -/
def seoExpectedTrace : Nat → Nat → List SeoEv
  | a, 0 => [SeoEv.invoke a]
  | a, j + 1 => SeoEv.invoke a :: SeoEv.sleepEv :: seoExpectedTrace (a + 1) j

/-- A stub operation that raises the same stale-reference failure `e` exactly
`k` times and then returns `v`. -/
def staleStub (k e v : Nat) : Nat → OpResult :=
  fun i => if i < k then OpResult.exn (ExKind.staleRef e) else OpResult.ok v

/-- Recognises operation invocations in a retry trace. -/
def isInvoke : SeoEv → Bool
  | SeoEv.invoke _ => true
  | SeoEv.sleepEv => false

/-- Number of times the wrapped operation is invoked in a trace. -/
def invokeCount (tr : List SeoEv) : Nat := (tr.filter isInvoke).length

/-- Stub for the non-stale propagation claim: stale once, then a distinct
non-stale failure. -/
def c6StubOp : Nat → OpResult :=
  fun i => if i = 0 then OpResult.exn (ExKind.staleRef 3) else OpResult.exn (ExKind.otherErr 5)

/-- One sample of the stability loop of `_is_response_complete`: a (stripped)
text read, a `StaleElementReferenceException`, or any other read error (which
the source counts as a stable sample). -/
inductive Sample where
  | read (t : List Char)
  | stale
  | err

/-- `stability_checks = int(2.0 / 0.5)` of `_is_response_complete`
(src/drivers/__init__.py line 812). -/
def stabilityChecks : Nat := 4

/-- Minimum response length below which the stability path refuses to declare
completion (src/drivers/__init__.py line 842). -/
def minCompleteLength : Nat := 20

/-- The stability loop and final decision of `_is_response_complete`
(src/drivers/__init__.py lines 815-855).  `fuel` counts the remaining
samples; at the end, text shorter than 20 characters is rejected, otherwise
the 70 percent stability threshold (`stable_count >= stability_checks * 0.7`,
rendered as an exact rational comparison) decides.  A stale read returns
completion immediately. -/
def stabLoop (samples : Nat → Sample) : Nat → Nat → List Char → Nat → Bool
  | _, 0, initial, stable =>
    if initial.length < minCompleteLength then false
    else decide (7 * stabilityChecks ≤ 10 * stable)
  | i, fuel + 1, initial, stable =>
    match samples i with
    | Sample.read t =>
      if t = initial then stabLoop samples (i + 1) fuel initial (stable + 1)
      else stabLoop samples (i + 1) fuel t 0
    | Sample.stale => true
    | Sample.err => stabLoop samples (i + 1) fuel initial (stable + 1)

/-- `_is_response_complete(response_element, response_text)` (src/drivers/
__init__.py lines 753-860): an active stop button or a displayed streaming
indicator short-circuits to "still in progress"; otherwise the stability loop
decides. -/
def is_response_complete (stopActive streamingActive : Bool) (samples : Nat → Sample)
    (response_text : List Char) : Bool :=
  if stopActive then false
  else if streamingActive then false
  else stabLoop samples 0 stabilityChecks response_text 0

/-- A concrete response text of fewer than 20 characters. -/
def shortText : List Char := "short".toList

/-- Sample stream whose first stability read raises a stale-element failure. -/
def staleSamples : Nat → Sample := fun _ => Sample.stale

/-- Sample stream in which every read errors out non-stale. -/
def errSamples : Nat → Sample := fun _ => Sample.err

/-- A concrete response text of at least 20 characters. -/
def longText : List Char := "This is a finished, complete answer.".toList

/-- Sample stream that keeps reading the same long text. -/
def longReadSamples : Nat → Sample := fun _ => Sample.read longText

/-- `max_send_attempts` in `send_message` (src/drivers/__init__.py line 196). -/
def max_send_attempts : Nat := 2

/-- The mutable state the `send_operation` closure shares across retries:
`send_successful` and `send_attempts` (src/drivers/__init__.py lines 194-196). -/
structure SendState where
  successful : Bool
  attempts : Nat
deriving DecidableEq

/-- The externally visible effect of one `send_operation` invocation. -/
inductive SendAction where
  | clickButton
  | pressEnter
  | skip
deriving DecidableEq

/-- One invocation of the `send_operation` closure (src/drivers/__init__.py
lines 198-222): bump the attempt counter; if a send already succeeded, or the
attempt cap is exceeded, do nothing; otherwise click the send button when it
resolves, else fall back to the keyboard submit.  Returns the new state, the
dispatched action and the Python return value. -/
def send_operation (buttonFound : Bool) (st : SendState) : SendState × SendAction × Bool :=
  let st1 : SendState := { st with attempts := st.attempts + 1 }
  if st1.successful then (st1, SendAction.skip, true)
  else if max_send_attempts < st1.attempts then (st1, SendAction.skip, true)
  else if buttonFound then ({ st1 with successful := true }, SendAction.clickButton, true)
  else ({ st1 with successful := true }, SendAction.pressEnter, false)

/-- Actions dispatched over a sequence of `send_operation` invocations (one
Bool per call: whether the send button resolved on that call). -/
def send_run : List Bool → SendState → List SendAction
  | [], _ => []
  | b :: rest, st =>
    (send_operation b st).2.1 :: send_run rest (send_operation b st).1

/-- Whether an action actually dispatches the message. -/
def isDispatch : SendAction → Bool
  | SendAction.clickButton => true
  | SendAction.pressEnter => true
  | SendAction.skip => false

/-- Number of real dispatches (button clicks or keyboard submits) in an action
sequence. -/
def dispatchCount (acts : List SendAction) : Nat := (acts.filter isDispatch).length

/-- The instance attributes `ChatGPTDriver.__init__` creates
(src/drivers/__init__.py lines 21-24). -/
def chatgptDriverAttrs : List String := ["selenium_wrapper", "wait", "_session_active"]

/-- Python attribute lookup on a `ChatGPTDriver` instance. -/
def hasAttr (name : String) : Bool := chatgptDriverAttrs.contains name

/-- The diagnostic fields `_analyze_ui_state` is meant to populate
(src/drivers/__init__.py lines 1100-1108). -/
structure UISnapshotInfo where
  page_loaded : Bool
  input_available : Bool
  send_button_state : String
  login_state : String

/-- The value `_analyze_ui_state` returns: either the populated field record,
or the `analysis_failed` fallback of its outer exception handler. -/
inductive UISnapshot where
  | analysisFailed (msg : String)
  | info (s : UISnapshotInfo)

/-- Environment of one UI-state analysis: document ready state, the ordered
input-selector probes (found and displayed), the ordered send-control probes
(`none` when the selector resolves nothing, otherwise whether the control is
enabled), and the login check. -/
structure UIEnv where
  readyStateComplete : Bool
  inputDisplayed : List Bool
  sendButtons : List (Option Bool)
  loggedIn : Bool

/-- First-match-wins probing of the ordered send-control selector list. -/
def firstSome : List (Option Bool) → Option Bool
  | [] => none
  | none :: rest => firstSome rest
  | some b :: _ => some b

/-- The `send_button_state` field computation of `_analyze_ui_state`
(src/drivers/__init__.py lines 1136-1153). -/
def sendButtonStateOf (probes : List (Option Bool)) : String :=
  match firstSome probes with
  | none => "not_found"
  | some true => "enabled"
  | some false => "disabled"

/-- The field record `_analyze_ui_state` would build from the page if its
first statement did not fail (src/drivers/__init__.py lines 1110-1179). -/
def computeUIInfo (env : UIEnv) : UISnapshotInfo :=
  { page_loaded := env.readyStateComplete
    input_available := env.inputDisplayed.any (fun b => b)
    send_button_state := sendButtonStateOf env.sendButtons
    login_state := if env.loggedIn then "logged_in" else "logged_out" }

/-- The message of the AttributeError raised by `self.driver` on a
`ChatGPTDriver`, which has no such attribute. -/
def missingDriverMsg : String := "ChatGPTDriver object has no attribute driver"

/-- `_analyze_ui_state()` (src/drivers/__init__.py lines 1091-1204): its first
statement reads `self.driver`; `ChatGPTDriver` defines no attribute `driver`
(only `selenium_wrapper`, `wait`, `_session_active`), so the read raises
`AttributeError`, the outer handler catches it, and the fallback dictionary is
returned; the field computation is dead code. -/
def analyze_ui_state (env : UIEnv) : UISnapshot :=
  if hasAttr "driver" then UISnapshot.info (computeUIInfo env)
  else UISnapshot.analysisFailed missingDriverMsg

/-- Whether a snapshot carries the document-ready, input-availability and
submit-control fields. -/
def snapshotHasFields : UISnapshot → Bool
  | UISnapshot.info _ => true
  | UISnapshot.analysisFailed _ => false

/-- The failure `send_message` raises when no response-start evidence appears
in any of the three wait phases (src/drivers/__init__.py lines 275-280): the
attached diagnostic snapshot is the `_analyze_ui_state()` result. -/
structure StartTimeoutError where
  snapshot : UISnapshot

/-- The response-start-timeout failure constructed at src/drivers/__init__.py
lines 276-280. -/
def response_start_timeout (env : UIEnv) : StartTimeoutError :=
  { snapshot := analyze_ui_state env }

/-- `_estimate_tokens(messages)` (src/services/__init__.py lines 540-544):
`max(1, total_chars // 4)` over the messages, where a `None` content counts as
the empty string. -/
def estimate_tokens (msgs : List (Option (List Char))) : Nat :=
  max 1 ((msgs.map (fun c => (c.getD []).length)).sum / 4)

/-- Total character count of a message list, `None` content counting as empty. -/
def charCount (msgs : List (Option (List Char))) : Nat :=
  (msgs.map (fun c => (c.getD []).length)).sum

/-- The usage block of `_build_response` (src/services/__init__.py lines
514-538). -/
structure UsageModel where
  prompt_tokens : Nat
  completion_tokens : Nat
  total_tokens : Nat
deriving DecidableEq

/-- Usage figures of the response `_build_response` constructs: prompt tokens
from the request messages, completion tokens from the single assistant
message holding the final content, total their sum. -/
def build_response_usage (requestMessages : List (Option (List Char))) (content : List Char) :
    UsageModel :=
  { prompt_tokens := estimate_tokens requestMessages
    completion_tokens := estimate_tokens [some content]
    total_tokens := estimate_tokens requestMessages + estimate_tokens [some content] }

/-- `chunk_size` of `generate_streaming_response` (src/api/__init__.py line 41). -/
def streamChunkSize : Nat := 20

/-- The delta contents emitted by the loop of `generate_streaming_response`
(src/api/__init__.py lines 46-65): each 20-character slice is emitted as a
delta, except that the slice reaching the end of the content
(`i + chunk_size >= len(content)`) is replaced by an empty delta.  `fuel` is
at least the remaining length, so the fuel-zero case is unreachable. -/
def streamGo : Nat → List Char → List (List Char)
  | _, [] => []
  | 0, _ :: _ => []
  | fuel + 1, c :: rest =>
    if (c :: rest).length ≤ streamChunkSize then [[]]
    else (c :: rest).take streamChunkSize :: streamGo fuel ((c :: rest).drop streamChunkSize)

/-- The streamed delta contents for a completed response content. -/
def stream_deltas (content : List Char) : List (List Char) :=
  streamGo content.length content

/-- Length of the final 20-character-or-shorter slice of a content of length
`n`. -/
def lastChunkSize (n : Nat) : Nat := if n % 20 = 0 then 20 else n % 20

/-- A concrete 25-character streaming content. -/
def streamSampleContent : List Char := "abcdefghijklmnopqrstuvwxy".toList

/-! ### Retry-safe operation wrapper (claims C3, C6) -/

theorem seoRun_staleStub (k e v : Nat) :
    ∀ remaining attempt, seoRun (staleStub k e v) remaining attempt =
      if k ≤ attempt + remaining then Except.ok v
      else Except.error (ExKind.staleRef e) := by
  intro remaining
  induction remaining with
  | zero =>
    intro attempt
    rw [seoRun]
    by_cases h : attempt < k
    · have h2 : ¬ k ≤ attempt := by omega
      simp [staleStub, if_pos h, h2]
    · have h2 : k ≤ attempt := by omega
      simp [staleStub, if_neg h, h2]
  | succ r ih =>
    intro attempt
    rw [seoRun]
    by_cases h : attempt < k
    · have heq : attempt + 1 + r = attempt + (r + 1) := by omega
      have := ih (attempt + 1)
      rw [heq] at this
      simp [staleStub, if_pos h, this]
    · have h2 : k ≤ attempt + (r + 1) := by omega
      simp [staleStub, if_neg h, h2]

theorem invokeCount_staleStub (k e v : Nat) :
    ∀ remaining attempt, attempt + remaining < k →
      invokeCount (seoTrace (staleStub k e v) remaining attempt) = remaining + 1 := by
  intro remaining
  induction remaining with
  | zero =>
    intro attempt h
    have hlt : attempt < k := by omega
    rw [seoTrace]
    simp [staleStub, if_pos hlt, invokeCount, isInvoke, List.filter]
  | succ r ih =>
    intro attempt h
    have hlt : attempt < k := by omega
    rw [seoTrace]
    have hr := ih (attempt + 1) (by omega)
    simp [staleStub, if_pos hlt, invokeCount, isInvoke, List.filter] at hr ⊢
    omega

/-- C3: a stub operation raising the same stale-reference failure exactly `k`
times then succeeding: with `maxRetries ≥ k` the wrapper returns the success
value; with `maxRetries < k` it re-raises the stale failure unmodified after
all `maxRetries + 1` invocations. -/
theorem retry_wrapper_stub_behavior (k e v maxRetries : Nat) :
    (k ≤ maxRetries → safe_element_operation (staleStub k e v) maxRetries = Except.ok v) ∧
    (maxRetries < k →
      safe_element_operation (staleStub k e v) maxRetries =
        Except.error (ExKind.staleRef e) ∧
      invokeCount (seoTrace (staleStub k e v) maxRetries 0) = maxRetries + 1) := by
  constructor
  · intro h
    unfold safe_element_operation
    rw [seoRun_staleStub k e v maxRetries 0]
    simp [Nat.zero_add, h]
  · intro h
    constructor
    · unfold safe_element_operation
      rw [seoRun_staleStub k e v maxRetries 0]
      have h2 : ¬ k ≤ 0 + maxRetries := by omega
      rw [if_neg h2]
    · exact invokeCount_staleStub k e v maxRetries 0 (by omega)

theorem retry_wrapper_stub_behavior_witness :
    safe_element_operation (staleStub 2 7 42) 2 = Except.ok 42 ∧
    (safe_element_operation (staleStub 2 7 42) 1 = Except.error (ExKind.staleRef 7) ∧
      invokeCount (seoTrace (staleStub 2 7 42) 1 0) = 2) :=
  ⟨(retry_wrapper_stub_behavior 2 7 42 2).1 (by decide),
    (retry_wrapper_stub_behavior 2 7 42 1).2 (by decide)⟩

theorem seoRun_other_after_stales (op : Nat → OpResult) (m : Nat) :
    ∀ j remaining attempt,
      (∀ d, d < j → ∃ md, op (attempt + d) = OpResult.exn (ExKind.staleRef md)) →
      op (attempt + j) = OpResult.exn (ExKind.otherErr m) →
      j ≤ remaining →
      seoRun op remaining attempt = Except.error (ExKind.otherErr m) ∧
      seoTrace op remaining attempt = seoExpectedTrace attempt j := by
  intro j
  induction j with
  | zero =>
    intro remaining attempt hs ho hle
    rw [Nat.add_zero] at ho
    constructor
    · rw [seoRun, ho]
    · cases remaining with
      | zero => rw [seoTrace, seoExpectedTrace]
      | succ r => rw [seoTrace, ho, seoExpectedTrace]
  | succ n ih =>
    intro remaining attempt hs ho hle
    obtain ⟨m0, hm0⟩ := hs 0 (by omega)
    rw [Nat.add_zero] at hm0
    obtain ⟨r, rfl⟩ : ∃ r, remaining = r + 1 := ⟨remaining - 1, by omega⟩
    have hrec := ih r (attempt + 1)
      (fun d hd => by
        obtain ⟨md, hmd⟩ := hs (d + 1) (by omega)
        exact ⟨md, by rw [show attempt + 1 + d = attempt + (d + 1) by omega]; exact hmd⟩)
      (by rw [show attempt + 1 + n = attempt + (n + 1) by omega]; exact ho)
      (by omega)
    constructor
    · rw [seoRun, hm0]
      exact hrec.1
    · rw [seoTrace, hm0, seoExpectedTrace]
      rw [hrec.2]

theorem invoke_mem_seoExpectedTrace :
    ∀ j a n, SeoEv.invoke n ∈ seoExpectedTrace a j → n ≤ a + j := by
  intro j
  induction j with
  | zero =>
    intro a n h
    rw [seoExpectedTrace] at h
    simp only [List.mem_singleton] at h
    injection h with h2
    omega
  | succ m ih =>
    intro a n h
    rw [seoExpectedTrace] at h
    simp only [List.mem_cons] at h
    rcases h with h | h | h
    · injection h with h2
      omega
    · exact SeoEv.noConfusion h
    · have := ih (a + 1) n h
      omega

/-- C6: only a stale-reference failure triggers a retry (each retry preceded
by one sleep of the retry delay); a failure of any other kind propagates to
the caller the first time it occurs, and the operation is never invoked
again afterwards. -/
theorem non_stale_failure_propagates (op : Nat → OpResult) (maxRetries i m : Nat)
    (hstale : ∀ j, j < i → ∃ mj, op j = OpResult.exn (ExKind.staleRef mj))
    (hother : op i = OpResult.exn (ExKind.otherErr m))
    (hle : i ≤ maxRetries) :
    safe_element_operation op maxRetries = Except.error (ExKind.otherErr m) ∧
    seoTrace op maxRetries 0 = seoExpectedTrace 0 i ∧
    ∀ n, SeoEv.invoke n ∈ seoTrace op maxRetries 0 → n ≤ i := by
  have h := seoRun_other_after_stales op m i maxRetries 0
    (fun d hd => by simpa using hstale d hd) (by simpa using hother) hle
  refine ⟨h.1, h.2, ?_⟩
  intro n hn
  rw [h.2] at hn
  have := invoke_mem_seoExpectedTrace i 0 n hn
  omega

theorem non_stale_failure_propagates_witness :
    safe_element_operation c6StubOp 3 = Except.error (ExKind.otherErr 5) ∧
    seoTrace c6StubOp 3 0 = seoExpectedTrace 0 1 ∧
    ∀ n, SeoEv.invoke n ∈ seoTrace c6StubOp 3 0 → n ≤ 1 :=
  non_stale_failure_propagates c6StubOp 3 1 5
    (fun j hj => ⟨3, by
      have hj0 : j = 0 := by omega
      subst hj0
      rfl⟩)
    (by rfl) (by decide)

/-! ### Completion detector (claims C2, C7) -/

theorem stabLoop_short_false (samples : Nat → Sample) :
    ∀ fuel i initial stable,
      initial.length < minCompleteLength →
      (∀ j, i ≤ j → j < i + fuel →
        samples j ≠ Sample.stale ∧
        ∀ u, samples j = Sample.read u → u.length < minCompleteLength) →
      stabLoop samples i fuel initial stable = false := by
  intro fuel
  induction fuel with
  | zero =>
    intro i initial stable h _
    rw [stabLoop]
    simp [if_pos h]
  | succ f ih =>
    intro i initial stable h hs
    have hi := hs i (Nat.le_refl i) (by omega)
    rw [stabLoop]
    cases hsam : samples i with
    | read t =>
      show (if t = initial then stabLoop samples (i + 1) f initial (stable + 1)
            else stabLoop samples (i + 1) f t 0) = false
      by_cases ht : t = initial
      · rw [if_pos ht]
        exact ih (i + 1) initial (stable + 1) h (fun j hj1 hj2 => hs j (by omega) (by omega))
      · rw [if_neg ht]
        exact ih (i + 1) t 0 (hi.2 t hsam) (fun j hj1 hj2 => hs j (by omega) (by omega))
    | stale => exact absurd hsam hi.1
    | err => exact ih (i + 1) initial (stable + 1) h (fun j hj1 hj2 => hs j (by omega) (by omega))

/-- C2 counterexample: with a response text of fewer than 20 characters, a
stale read during the stability window makes `_is_response_complete` return
`True`, so short text can be classified complete. -/
theorem short_stale_completes_cex :
    shortText.length < minCompleteLength ∧
    is_response_complete false false staleSamples shortText = true :=
  ⟨by decide, by rfl⟩

/-- C2 amended: as long as the response element never turns stale during the
stability window, observed text shorter than 20 characters is never
classified complete, regardless of how many samples were unchanged; the
stale path, however, reports completion whatever the length. -/
theorem short_text_incomplete_without_stale (stopA streamingA : Bool)
    (samples : Nat → Sample) (t : List Char)
    (ht : t.length < minCompleteLength)
    (hread : ∀ i, i < stabilityChecks → ∀ u, samples i = Sample.read u →
      u.length < minCompleteLength)
    (hstale : ∀ i, i < stabilityChecks → samples i ≠ Sample.stale) :
    is_response_complete stopA streamingA samples t = false := by
  cases stopA with
  | true => rfl
  | false =>
    cases streamingA with
    | true => rfl
    | false =>
      show stabLoop samples 0 stabilityChecks t 0 = false
      exact stabLoop_short_false samples stabilityChecks 0 t 0 ht
        (fun j hj1 hj2 =>
          ⟨hstale j (by omega), fun u hu => hread j (by omega) u hu⟩)

theorem short_text_incomplete_witness :
    is_response_complete false false errSamples shortText = false :=
  short_text_incomplete_without_stale false false errSamples shortText (by decide)
    (fun _ _ _ h => Sample.noConfusion h) (fun _ _ h => Sample.noConfusion h)

/-- C7: whenever `_is_response_complete` reports completion, neither the
stop/cancel control nor a streaming indicator was active in the evidence the
decision was computed from (either one forces an early `False`). -/
theorem complete_implies_not_busy (stopA streamingA : Bool) (samples : Nat → Sample)
    (t : List Char) (h : is_response_complete stopA streamingA samples t = true) :
    stopA = false ∧ streamingA = false := by
  cases stopA with
  | true => exact absurd h (by simp [is_response_complete])
  | false =>
    cases streamingA with
    | true => exact absurd h (by simp [is_response_complete])
    | false => exact ⟨rfl, rfl⟩

theorem complete_implies_not_busy_witness :
    is_response_complete false false longReadSamples longText = true ∧
    (false = false ∧ false = false) :=
  ⟨by rfl, complete_implies_not_busy false false longReadSamples longText (by rfl)⟩

/-! ### Delivery strategy selection (claim C5) -/

/-- C5: under the default configuration (`safe_send_limit = 150`) the strategy
selector is a pure function of the outbound length with bands
`[0,150] → safe_single`, `(150,4000] → try_single_fallback_chunk`,
`(4000,∞) → smart_chunking`, and it is monotone in the length. -/
theorem select_send_strategy_bands (n : Nat) :
    (n ≤ 150 → select_send_strategy safe_send_limit n = "safe_single") ∧
    (150 < n → n ≤ 4000 → select_send_strategy safe_send_limit n = "try_single_fallback_chunk") ∧
    (4000 < n → select_send_strategy safe_send_limit n = "smart_chunking") ∧
    (∀ m, m ≤ n →
      strategyRank (select_send_strategy safe_send_limit m) ≤
        strategyRank (select_send_strategy safe_send_limit n)) := by
  refine ⟨?_, ?_, ?_, ?_⟩
  · intro h
    simp [select_send_strategy, safe_send_limit, h]
  · intro h1 h2
    have h3 : ¬ n ≤ 150 := by omega
    simp [select_send_strategy, safe_send_limit, h2, h3]
  · intro h
    have h3 : ¬ n ≤ 150 := by omega
    have h4 : ¬ n ≤ 4000 := by omega
    simp [select_send_strategy, safe_send_limit, h3, h4]
  · intro m hm
    unfold select_send_strategy safe_send_limit
    split_ifs <;> first | decide | omega

theorem select_send_strategy_bands_witness :
    select_send_strategy safe_send_limit 150 = "safe_single" ∧
    select_send_strategy safe_send_limit 151 = "try_single_fallback_chunk" ∧
    select_send_strategy safe_send_limit 4500 = "smart_chunking" ∧
    strategyRank (select_send_strategy safe_send_limit 2) ≤
      strategyRank (select_send_strategy safe_send_limit 4500) :=
  ⟨(select_send_strategy_bands 150).1 (by decide),
    (select_send_strategy_bands 151).2.1 (by decide) (by decide),
    (select_send_strategy_bands 4500).2.2.1 (by decide),
    (select_send_strategy_bands 4500).2.2.2 2 (by decide)⟩

/-! ### Submission guard (claim C8) -/

theorem send_op_skip_of_success (b : Bool) (st : SendState) (h : st.successful = true) :
    (send_operation b st).2.1 = SendAction.skip ∧ (send_operation b st).1.successful = true := by
  simp [send_operation, h]

theorem dispatchCount_cons (a : SendAction) (l : List SendAction) :
    dispatchCount (a :: l) = (if isDispatch a = true then 1 else 0) + dispatchCount l := by
  unfold dispatchCount
  rw [List.filter_cons]
  split_ifs <;> simp [Nat.add_comm]

theorem send_run_success_zero :
    ∀ calls (st : SendState), st.successful = true →
      dispatchCount (send_run calls st) = 0 := by
  intro calls
  induction calls with
  | nil => intro st _; rfl
  | cons b rest ih =>
    intro st h
    rw [send_run]
    have h1 := send_op_skip_of_success b st h
    rw [h1.1, dispatchCount_cons]
    simp [isDispatch, ih (send_operation b st).1 h1.2]

theorem send_run_le_one :
    ∀ calls (st : SendState), st.successful = false →
      dispatchCount (send_run calls st) ≤ 1 := by
  intro calls
  induction calls with
  | nil => intro st _; simp [send_run, dispatchCount]
  | cons b rest ih =>
    intro st h
    rw [send_run]
    by_cases hc : max_send_attempts < st.attempts + 1
    · have hop : send_operation b st =
          ({ st with attempts := st.attempts + 1 }, SendAction.skip, true) := by
        simp [send_operation, h, hc]
      rw [hop, dispatchCount_cons]
      have h2 := ih { st with attempts := st.attempts + 1 } h
      simp [isDispatch]
      omega
    · cases b with
      | true =>
        have hop : send_operation true st =
            ({ st with attempts := st.attempts + 1, successful := true },
              SendAction.clickButton, true) := by
          simp [send_operation, h, hc]
        rw [hop, dispatchCount_cons]
        have h2 := send_run_success_zero rest
          { st with attempts := st.attempts + 1, successful := true } rfl
        simp [isDispatch]
        omega
      | false =>
        have hop : send_operation false st =
            ({ st with attempts := st.attempts + 1, successful := true },
              SendAction.pressEnter, false) := by
          simp [send_operation, h, hc]
        rw [hop, dispatchCount_cons]
        have h2 := send_run_success_zero rest
          { st with attempts := st.attempts + 1, successful := true } rfl
        simp [isDispatch]
        omega

/-- C8: once `send_successful` is recorded, every further invocation of the
send operation returns immediately without clicking the send control or
dispatching the keyboard submit; consequently a whole exchange performs at
most one real dispatch. -/
theorem send_dispatch_idempotent :
    (∀ (b : Bool) (st : SendState), st.successful = true →
      (send_operation b st).2.1 = SendAction.skip ∧
      (send_operation b st).1.successful = true) ∧
    (∀ calls : List Bool,
      dispatchCount (send_run calls { successful := false, attempts := 0 }) ≤ 1) := by
  constructor
  · intro b st h
    simp [send_operation, h]
  · intro calls
    exact send_run_le_one calls { successful := false, attempts := 0 } rfl

theorem send_dispatch_idempotent_witness :
    ((send_operation true { successful := true, attempts := 1 }).2.1 = SendAction.skip ∧
      (send_operation true { successful := true, attempts := 1 }).1.successful = true) ∧
    dispatchCount (send_run [true, true, false] { successful := false, attempts := 0 }) ≤ 1 :=
  ⟨send_dispatch_idempotent.1 true { successful := true, attempts := 1 } (by decide),
    send_dispatch_idempotent.2 [true, true, false]⟩

/-! ### Response-start timeout diagnostics (claim C4) -/

/-- C4: the diagnostic snapshot attached to the response-start timeout is
always the `analysis_failed` fallback, because `_analyze_ui_state` begins by
reading the nonexistent attribute `self.driver`; the document-ready,
input-availability and submit-control fields the function initialises are
dead code and never reach the raised failure. -/
theorem start_timeout_snapshot_lacks_fields (env : UIEnv) :
    (response_start_timeout env).snapshot = UISnapshot.analysisFailed missingDriverMsg ∧
    snapshotHasFields (response_start_timeout env).snapshot = false := by
  constructor <;> rfl

/-! ### Usage estimation (claim C9) -/

/-- C9 counterexample: for a 2-character completion the code reports 1
completion token while `character_count / 4` is 0, so the usage figures are
not plain floor division. -/
theorem usage_not_floor_div_cex :
    (build_response_usage [some ("Hi".toList)] ("Hi".toList)).completion_tokens ≠
      ("Hi".toList).length / 4 ∧
    (build_response_usage [some ("Hi".toList)] ("Hi".toList)).completion_tokens = 1 ∧
    ("Hi".toList).length / 4 = 0 :=
  ⟨by decide, by decide, by decide⟩

/-- C9 amended: the usage figures are estimated as
`max(1, character_count // 4)`: prompt tokens from the total character count
of the request messages, completion tokens from the final text, and the
total is their sum. -/
theorem usage_estimation_fields (msgs : List (Option (List Char))) (content : List Char) :
    (build_response_usage msgs content).prompt_tokens = max 1 (charCount msgs / 4) ∧
    (build_response_usage msgs content).completion_tokens = max 1 (content.length / 4) ∧
    (build_response_usage msgs content).total_tokens =
      (build_response_usage msgs content).prompt_tokens +
        (build_response_usage msgs content).completion_tokens := by
  refine ⟨rfl, ?_, rfl⟩
  simp [build_response_usage, estimate_tokens]

/-! ### Streaming deltas (claim C10) -/

theorem streamGo_flatten (fuel : Nat) :
    ∀ rest : List Char, rest ≠ [] → rest.length ≤ fuel →
      (streamGo fuel rest).flatten =
        rest.take (rest.length - lastChunkSize rest.length) := by
  induction fuel with
  | zero =>
    intro rest h hl
    cases rest with
    | nil => exact absurd rfl h
    | cons c r => simp at hl
  | succ f ih =>
    intro rest h hl
    cases rest with
    | nil => exact absurd rfl h
    | cons c r =>
      rw [streamGo]
      by_cases hle : (c :: r).length ≤ streamChunkSize
      · rw [if_pos hle]
        have hz : (c :: r).length - lastChunkSize (c :: r).length = 0 := by
          have h1 : 0 < (c :: r).length := by simp
          unfold streamChunkSize at hle
          unfold lastChunkSize
          split_ifs <;> omega
        rw [hz]
        simp
      · rw [if_neg hle]
        have hlen : 20 < (c :: r).length := by
          unfold streamChunkSize at hle
          omega
        have hdl : ((c :: r).drop streamChunkSize).length = (c :: r).length - 20 := by
          rw [List.length_drop]
          rfl
        have hne : (c :: r).drop streamChunkSize ≠ [] := by
          have hpos : 0 < ((c :: r).drop streamChunkSize).length := by
            rw [hdl]
            omega
          intro hcontra
          rw [hcontra] at hpos
          simp at hpos
        have hfuel : ((c :: r).drop streamChunkSize).length ≤ f := by
          rw [hdl]
          have : (c :: r).length ≤ f + 1 := hl
          omega
        have hrec := ih _ hne hfuel
        rw [List.flatten_cons, hrec]
        have hmod : lastChunkSize ((c :: r).drop streamChunkSize).length =
            lastChunkSize (c :: r).length := by
          rw [hdl]
          unfold lastChunkSize
          have hmm : ((c :: r).length - 20) % 20 = (c :: r).length % 20 := by omega
          rw [hmm]
        rw [hmod, hdl]
        rw [← List.take_add]
        congr 1
        unfold lastChunkSize streamChunkSize
        split_ifs <;> omega

/-- C10: for non-empty content the streaming generator discards exactly the
final 1-to-20-character slice: the concatenation of all streamed delta
contents is the content with its last chunk removed, and content of at most
20 characters streams nothing at all. -/
theorem stream_deltas_drop_last_chunk (content : List Char) (h : content ≠ []) :
    1 ≤ lastChunkSize content.length ∧ lastChunkSize content.length ≤ 20 ∧
    (stream_deltas content).flatten =
      content.take (content.length - lastChunkSize content.length) ∧
    (content.length ≤ streamChunkSize → (stream_deltas content).flatten = []) := by
  have hj := streamGo_flatten content.length content h (Nat.le_refl _)
  refine ⟨?_, ?_, hj, ?_⟩
  · unfold lastChunkSize
    split_ifs <;> omega
  · unfold lastChunkSize
    split_ifs <;> omega
  · intro hle
    unfold stream_deltas
    rw [hj]
    have h1 : 0 < content.length := List.length_pos.mpr h
    unfold streamChunkSize at hle
    have hz : content.length - lastChunkSize content.length = 0 := by
      unfold lastChunkSize
      split_ifs <;> omega
    rw [hz]
    simp

theorem stream_deltas_drop_last_chunk_witness :
    streamSampleContent ≠ [] ∧
    (stream_deltas streamSampleContent).flatten =
      streamSampleContent.take
        (streamSampleContent.length - lastChunkSize streamSampleContent.length) :=
  ⟨by decide, (stream_deltas_drop_last_chunk streamSampleContent (by decide)).2.2.1⟩

/-! ### Smart chunking (claim C1): split/join infrastructure -/

theorem startsWith_drop :
    ∀ sep xs : List Char, startsWith sep xs = true →
      sep ++ List.drop sep.length xs = xs := by
  intro sep
  induction sep with
  | nil => intro xs _; rfl
  | cons a as ih =>
    intro xs h
    cases xs with
    | nil => exact absurd h (by simp [startsWith])
    | cons b bs =>
      rw [startsWith] at h
      have hab : a = b := by
        have := (Bool.and_eq_true _ _).mp h
        exact beq_iff_eq.mp this.1
      have htail : startsWith as bs = true := ((Bool.and_eq_true _ _).mp h).2
      subst hab
      have := ih bs htail
      simpa [List.length_cons, List.drop_succ_cons] using congrArg (a :: ·) this

theorem splitOnFuel_ne_nil (sep : List Char) :
    ∀ fuel xs acc, splitOnFuel sep fuel xs acc ≠ [] := by
  intro fuel
  induction fuel with
  | zero => intro xs acc; simp [splitOnFuel]
  | succ f ih =>
    intro xs acc
    cases xs with
    | nil => simp [splitOnFuel]
    | cons c rest =>
      rw [splitOnFuel]
      by_cases h : startsWith sep (c :: rest) = true
      · simp [h]
      · rw [if_neg (by simp [h])]
        exact ih rest (c :: acc)

theorem splitOnL_ne_nil (sep xs : List Char) : splitOnL sep xs ≠ [] :=
  splitOnFuel_ne_nil sep xs.length xs []

theorem joinSep_cons_cons (sep x y : List Char) (l : List (List Char)) :
    joinSep sep (x :: y :: l) = x ++ sep ++ joinSep sep (y :: l) := rfl

theorem joinSep_splitOnFuel (sep : List Char) :
    ∀ fuel xs acc, joinSep sep (splitOnFuel sep fuel xs acc) = acc.reverse ++ xs := by
  intro fuel
  induction fuel with
  | zero => intro xs acc; simp [splitOnFuel, joinSep]
  | succ f ih =>
    intro xs acc
    cases xs with
    | nil => simp [splitOnFuel, joinSep]
    | cons c rest =>
      rw [splitOnFuel]
      by_cases h : startsWith sep (c :: rest) = true
      · rw [if_pos h]
        have hne := splitOnFuel_ne_nil sep f (List.drop sep.length (c :: rest)) []
        obtain ⟨y, l, hyl⟩ : ∃ y l, splitOnFuel sep f (List.drop sep.length (c :: rest)) [] = y :: l := by
          cases hsp : splitOnFuel sep f (List.drop sep.length (c :: rest)) [] with
          | nil => exact absurd hsp hne
          | cons y l => exact ⟨y, l, rfl⟩
        rw [hyl, joinSep_cons_cons]
        have hj := ih (List.drop sep.length (c :: rest)) []
        rw [hyl] at hj
        simp only [List.reverse_nil, List.nil_append] at hj
        rw [List.append_assoc, hj]
        rw [startsWith_drop sep (c :: rest) h]
      · rw [if_neg h]
        have := ih rest (c :: acc)
        rw [this]
        simp

theorem joinSep_splitOnL (sep xs : List Char) :
    joinSep sep (splitOnL sep xs) = xs := by
  have := joinSep_splitOnFuel sep xs.length xs []
  simpa [splitOnL] using this

theorem joinAll_cons (sep x : List Char) (l : List (List Char)) :
    joinAll sep (x :: l) = sep ++ x ++ joinAll sep l := rfl

theorem joinSep_snoc (sep c : List Char) :
    ∀ l : List (List Char), l ≠ [] →
      joinSep sep (l ++ [c]) = joinSep sep l ++ sep ++ c := by
  intro l
  induction l with
  | nil => intro h; exact absurd rfl h
  | cons x rest ih =>
    intro _
    cases rest with
    | nil => simp [joinSep, List.append_assoc]
    | cons y l2 =>
      have h2 := ih (by simp)
      rw [List.cons_append] at h2
      show joinSep sep (x :: y :: (l2 ++ [c])) = joinSep sep (x :: y :: l2) ++ sep ++ c
      rw [joinSep_cons_cons, joinSep_cons_cons, h2]
      simp [List.append_assoc]

theorem joinSep_last_ext (sep x : List Char) :
    ∀ (l : List (List Char)) (a : List Char),
      joinSep sep (l ++ [a ++ x]) = joinSep sep (l ++ [a]) ++ x := by
  intro l
  induction l with
  | nil => intro a; simp [joinSep]
  | cons y rest ih =>
    intro a
    cases rest with
    | nil =>
      show joinSep sep (y :: [a ++ x]) = joinSep sep (y :: [a]) ++ x
      rw [joinSep_cons_cons, joinSep_cons_cons]
      simp [joinSep, List.append_assoc]
    | cons z l2 =>
      show joinSep sep (y :: ((z :: l2) ++ [a ++ x])) = joinSep sep (y :: ((z :: l2) ++ [a])) ++ x
      rw [List.cons_append, joinSep_cons_cons]
      have h2 := ih a
      rw [List.cons_append] at h2
      rw [h2]
      rw [List.cons_append, joinSep_cons_cons]
      simp [List.append_assoc]

theorem joinSep_cons_joinAll (sep x : List Char) :
    ∀ l : List (List Char), joinSep sep (x :: l) = x ++ joinAll sep l := by
  intro l
  induction l generalizing x with
  | nil => simp [joinSep, joinAll]
  | cons y rest ih =>
    rw [joinSep_cons_cons, joinAll_cons, ih y]
    simp [List.append_assoc]

theorem flattenTagged_nil : flattenTagged [] = [] := rfl

theorem flattenTagged_cons (t c : List Char) (l : List (List Char × List Char)) :
    flattenTagged ((t, c) :: l) = t ++ c ++ flattenTagged l := rfl

theorem flattenTagged_append :
    ∀ l1 l2 : List (List Char × List Char),
      flattenTagged (l1 ++ l2) = flattenTagged l1 ++ flattenTagged l2 := by
  intro l1 l2
  induction l1 with
  | nil => simp [flattenTagged]
  | cons a rest ih =>
    obtain ⟨t, c⟩ := a
    rw [List.cons_append, flattenTagged_cons, flattenTagged_cons, ih]
    simp [List.append_assoc]

theorem flattenTagged_map_sent (cs : List (List Char)) :
    flattenTagged (cs.map (fun d => (sentSep, d))) = joinAll sentSep cs := by
  induction cs with
  | nil => rfl
  | cons c rest ih =>
    rw [List.map_cons, flattenTagged_cons, joinAll_cons, ih]

theorem flattenTagged_tagSent (t c : List Char) (cs : List (List Char)) :
    flattenTagged (tagSent t (c :: cs)) = t ++ joinSep sentSep (c :: cs) := by
  rw [tagSent, flattenTagged_cons, flattenTagged_map_sent, joinSep_cons_joinAll]
  simp [List.append_assoc]

theorem tagSent_map_snd (t : List Char) :
    ∀ cs : List (List Char), (tagSent t cs).map Prod.snd = cs := by
  intro cs
  cases cs with
  | nil => rfl
  | cons c rest =>
    rw [tagSent, List.map_cons, List.map_map]
    simp

theorem append_left_ne_nil {a : List Char} (b : List Char) (h : a ≠ []) : a ++ b ≠ [] := by
  intro hx
  exact h (List.append_eq_nil.mp hx).1

theorem tagSent_fst_mem (t : List Char) (cs : List (List Char)) :
    ∀ u ∈ (tagSent t cs).map Prod.fst, u = t ∨ u = sentSep := by
  intro u hu
  cases cs with
  | nil => simp [tagSent] at hu
  | cons c rest =>
    simp [tagSent] at hu
    rcases hu with h | h
    · exact Or.inl h
    · exact Or.inr h.2

/-! ### Sentence-level splitting: non-emptiness and join preservation -/

theorem splitSentencesGo_ne_nil (maxSize : Nat) :
    ∀ (ss : List (List Char)) (chunks : List (List Char)) (current : List Char),
      current ≠ [] → (∀ s ∈ ss, s ≠ []) →
      splitSentencesGo maxSize ss chunks current ≠ [] := by
  intro ss
  induction ss with
  | nil =>
    intro chunks current hc _
    rw [splitSentencesGo, if_neg hc]
    simp
  | cons s rest ih =>
    intro chunks current hc hs
    have hsne : s ≠ [] := hs s (by simp)
    have hrest : ∀ u ∈ rest, u ≠ [] := fun u hu => hs u (by simp [hu])
    rw [splitSentencesGo]
    by_cases hfit : (current ++ s).length ≤ maxSize
    · rw [if_pos hfit, if_neg hc]
      exact ih chunks (current ++ sentSep ++ s)
        (append_left_ne_nil s (append_left_ne_nil sentSep hc)) hrest
    · rw [if_neg hfit]
      exact ih (if current = [] then chunks else chunks ++ [current]) s hsne hrest

theorem split_sentences_ne_nil (maxSize : Nat) (ss : List (List Char))
    (h0 : ss ≠ []) (h1 : ∀ s ∈ ss, s ≠ []) :
    split_sentences ss maxSize ≠ [] := by
  cases ss with
  | nil => exact absurd rfl h0
  | cons s rest =>
    have hsne : s ≠ [] := h1 s (by simp)
    have hrest : ∀ u ∈ rest, u ≠ [] := fun u hu => h1 u (by simp [hu])
    unfold split_sentences
    rw [splitSentencesGo]
    by_cases hfit : (([] : List Char) ++ s).length ≤ maxSize
    · rw [if_pos hfit, if_pos rfl]
      exact splitSentencesGo_ne_nil maxSize rest [] s hsne hrest
    · rw [if_neg hfit, if_pos rfl]
      exact splitSentencesGo_ne_nil maxSize rest [] s hsne hrest

theorem splitSentencesGo_join (maxSize : Nat) :
    ∀ (ss : List (List Char)) (chunks : List (List Char)) (current : List Char),
      current ≠ [] → (∀ s ∈ ss, s ≠ []) →
      joinSep sentSep (splitSentencesGo maxSize ss chunks current) =
        joinSep sentSep (chunks ++ [current]) ++ joinAll sentSep ss := by
  intro ss
  induction ss with
  | nil =>
    intro chunks current hc _
    rw [splitSentencesGo, if_neg hc]
    simp [joinAll]
  | cons s rest ih =>
    intro chunks current hc hs
    have hsne : s ≠ [] := hs s (by simp)
    have hrest : ∀ u ∈ rest, u ≠ [] := fun u hu => hs u (by simp [hu])
    rw [splitSentencesGo]
    by_cases hfit : (current ++ s).length ≤ maxSize
    · rw [if_pos hfit, if_neg hc]
      rw [ih chunks (current ++ sentSep ++ s)
        (append_left_ne_nil s (append_left_ne_nil sentSep hc)) hrest]
      rw [show current ++ sentSep ++ s = current ++ (sentSep ++ s) from by simp [List.append_assoc]]
      rw [joinSep_last_ext sentSep (sentSep ++ s) chunks current]
      rw [joinAll_cons]
      simp [List.append_assoc]
    · rw [if_neg hfit, if_neg hc]
      rw [ih (chunks ++ [current]) s hsne hrest]
      rw [joinSep_snoc sentSep s (chunks ++ [current]) (by simp)]
      rw [joinAll_cons]
      simp [List.append_assoc]

theorem split_sentences_join (maxSize : Nat) (ss : List (List Char))
    (h0 : ss ≠ []) (h1 : ∀ s ∈ ss, s ≠ []) :
    joinSep sentSep (split_sentences ss maxSize) = joinSep sentSep ss := by
  cases ss with
  | nil => exact absurd rfl h0
  | cons s rest =>
    have hsne : s ≠ [] := h1 s (by simp)
    have hrest : ∀ u ∈ rest, u ≠ [] := fun u hu => h1 u (by simp [hu])
    unfold split_sentences
    rw [splitSentencesGo]
    have htail : joinSep sentSep (splitSentencesGo maxSize rest [] s) =
        joinSep sentSep ([] ++ [s]) ++ joinAll sentSep rest :=
      splitSentencesGo_join maxSize rest [] s hsne hrest
    rw [joinSep_cons_joinAll sentSep s rest]
    by_cases hfit : (([] : List Char) ++ s).length ≤ maxSize
    · rw [if_pos hfit, if_pos rfl, htail]
      simp [joinSep]
    · rw [if_neg hfit, if_pos rfl, htail]
      simp [joinSep]

/-! ### Paragraph-level chunking: projection, tags, flatten -/

theorem emitT_nil_current (chunksT : List (List Char × List Char)) (ctag : List Char) :
    emitT chunksT ctag [] = chunksT := by
  rw [emitT, if_pos rfl]

theorem emitT_of_ne (chunksT : List (List Char × List Char)) (ctag current : List Char)
    (h : current ≠ []) : emitT chunksT ctag current = chunksT ++ [(ctag, current)] := by
  rw [emitT, if_neg h]

theorem flattenTagged_snoc (l : List (List Char × List Char)) (t c : List Char) :
    flattenTagged (l ++ [(t, c)]) = flattenTagged l ++ t ++ c := by
  rw [flattenTagged_append, flattenTagged_cons, flattenTagged_nil]
  simp [List.append_assoc]

theorem smartChunkGoT_map_snd :
    ∀ (ps : List (List Char)) (chunksT : List (List Char × List Char)) (ctag current : List Char),
      (smartChunkGoT ps chunksT ctag current).map Prod.snd =
        smartChunkGo ps (chunksT.map Prod.snd) current := by
  intro ps
  induction ps with
  | nil =>
    intro chunksT ctag current
    rw [smartChunkGoT, smartChunkGo, emitT]
    by_cases hc : current = []
    · rw [if_pos hc, if_pos hc]
    · rw [if_neg hc, if_neg hc]
      simp
  | cons p rest ih =>
    intro chunksT ctag current
    rw [smartChunkGoT, smartChunkGo]
    by_cases hfit : (current ++ p).length ≤ maxChunkSize
    · rw [if_pos hfit, if_pos hfit]
      by_cases hc : current = []
      · rw [if_pos hc, if_pos hc]
        exact ih chunksT (newTag chunksT) p
      · rw [if_neg hc, if_neg hc]
        exact ih chunksT ctag (current ++ parSep ++ p)
    · rw [if_neg hfit, if_neg hfit]
      by_cases hov : maxChunkSize < p.length
      · rw [if_pos hov, if_pos hov]
        rw [ih _ [] []]
        congr 1
        rw [List.map_append, tagSent_map_snd, emitT]
        by_cases hc : current = []
        · rw [if_pos hc, if_pos hc]
        · rw [if_neg hc, if_neg hc]
          simp
      · rw [if_neg hov, if_neg hov]
        rw [ih _ parSep p]
        congr 1
        rw [emitT]
        by_cases hc : current = []
        · rw [if_pos hc, if_pos hc]
        · rw [if_neg hc, if_neg hc]
          simp

theorem sepTagsOK_drop_last (l : List (List Char)) (t : List Char)
    (h : SepTagsOK (l ++ [t])) : SepTagsOK l := by
  cases l with
  | nil => trivial
  | cons x rest =>
    rw [List.cons_append, SepTagsOK] at h
    rw [SepTagsOK]
    exact ⟨h.1, fun u hu => h.2 u (by simp [hu])⟩

theorem sepTagsOK_append (l l2 : List (List Char)) (hl : l ≠ []) (h : SepTagsOK l)
    (h2 : ∀ u ∈ l2, u = parSep ∨ u = sentSep) : SepTagsOK (l ++ l2) := by
  cases l with
  | nil => exact absurd rfl hl
  | cons x rest =>
    rw [List.cons_append, SepTagsOK]
    rw [SepTagsOK] at h
    refine ⟨h.1, fun u hu => ?_⟩
    rcases List.mem_append.mp hu with hm | hm
    · exact h.2 u hm
    · exact h2 u hm

theorem emitT_map_fst (chunksT : List (List Char × List Char)) (ctag current : List Char) :
    (emitT chunksT ctag current).map Prod.fst =
      if current = [] then chunksT.map Prod.fst else chunksT.map Prod.fst ++ [ctag] := by
  rw [emitT]
  by_cases hc : current = []
  · rw [if_pos hc, if_pos hc]
  · rw [if_neg hc, if_neg hc]
    simp

theorem smartChunkGoT_tags :
    ∀ (ps : List (List Char)) (chunksT : List (List Char × List Char)) (ctag current : List Char),
      SepTagsOK ((emitT chunksT ctag current).map Prod.fst) →
      SepTagsOK ((smartChunkGoT ps chunksT ctag current).map Prod.fst) := by
  intro ps
  induction ps with
  | nil =>
    intro chunksT ctag current h
    rw [smartChunkGoT]
    exact h
  | cons p rest ih =>
    intro chunksT ctag current h
    rw [smartChunkGoT]
    by_cases hfit : (current ++ p).length ≤ maxChunkSize
    · rw [if_pos hfit]
      by_cases hc : current = []
      · rw [if_pos hc]
        apply ih
        subst hc
        rw [emitT_nil_current] at h
        rw [emitT_map_fst]
        by_cases hpn : p = []
        · rw [if_pos hpn]
          exact h
        · rw [if_neg hpn]
          by_cases hch : chunksT = []
          · subst hch
            rw [newTag, if_pos rfl]
            simp only [List.map_nil, List.nil_append]
            rw [SepTagsOK]
            exact ⟨rfl, by simp⟩
          · rw [newTag, if_neg hch]
            apply sepTagsOK_append _ _ (by simpa using hch) h
            intro u hu
            simp at hu
            exact Or.inl hu
      · rw [if_neg hc]
        apply ih
        rw [emitT_map_fst] at h ⊢
        rw [if_neg hc] at h
        rw [if_neg (append_left_ne_nil p (append_left_ne_nil parSep hc))]
        exact h
    · rw [if_neg hfit]
      by_cases hov : maxChunkSize < p.length
      · rw [if_pos hov]
        apply ih
        rw [emitT_nil_current, List.map_append]
        by_cases hE : emitT chunksT ctag current = []
        · rw [hE]
          simp only [List.map_nil, List.nil_append]
          cases hsc : split_sentences (splitOnL sentSep p) maxChunkSize with
          | nil => rw [tagSent]; trivial
          | cons c cs =>
            rw [tagSent, List.map_cons, List.map_map, newTag, if_pos rfl]
            rw [SepTagsOK]
            refine ⟨rfl, fun u hu => ?_⟩
            simp at hu
            exact Or.inr hu.2
        · apply sepTagsOK_append _ _ (by simpa using hE) h
          intro u hu
          rcases tagSent_fst_mem _ _ u hu with h1 | h1
          · rw [newTag, if_neg hE] at h1
            exact Or.inl h1
          · exact Or.inr h1
      · rw [if_neg hov]
        have hcur : current ≠ [] := by
          intro hx
          apply hfit
          rw [hx]
          simp
          omega
        apply ih
        rw [emitT_map_fst]
        by_cases hpn : p = []
        · rw [if_pos hpn]
          rw [emitT_map_fst, if_neg hcur]
          rw [emitT_map_fst, if_neg hcur] at h
          exact h
        · rw [if_neg hpn]
          rw [emitT_map_fst, if_neg hcur] at h
          rw [emitT_map_fst, if_neg hcur]
          apply sepTagsOK_append _ _ (by simp) h
          intro u hu
          simp at hu
          exact Or.inl hu

theorem smartChunkGoT_flatten :
    ∀ (ps : List (List Char)), (∀ p ∈ ps, GoodPar p) →
      ∀ (chunksT : List (List Char × List Char)) (ctag current : List Char),
        flattenTagged (smartChunkGoT ps chunksT ctag current) =
          flattenTagged (emitT chunksT ctag current) ++
            (if emitT chunksT ctag current = [] then joinSep parSep ps
             else joinAll parSep ps) := by
  intro ps
  induction ps with
  | nil =>
    intro _ chunksT ctag current
    rw [smartChunkGoT]
    by_cases hE : emitT chunksT ctag current = []
    · rw [if_pos hE]
      simp [joinSep]
    · rw [if_neg hE]
      simp [joinAll]
  | cons p rest ih =>
    intro hgood chunksT ctag current
    have hp : GoodPar p := hgood p (by simp)
    have hrest : ∀ q ∈ rest, GoodPar q := fun q hq => hgood q (by simp [hq])
    rw [smartChunkGoT]
    by_cases hfit : (current ++ p).length ≤ maxChunkSize
    · rw [if_pos hfit]
      by_cases hc : current = []
      · rw [if_pos hc]
        subst hc
        rw [ih hrest chunksT (newTag chunksT) p]
        rw [emitT_of_ne _ _ _ hp.1]
        have hE1 : chunksT ++ [(newTag chunksT, p)] ≠ [] := by simp
        rw [if_neg hE1, flattenTagged_snoc, emitT_nil_current]
        by_cases hch : chunksT = []
        · subst hch
          rw [if_pos rfl, newTag, if_pos rfl]
          rw [joinSep_cons_joinAll]
          simp [flattenTagged]
        · rw [if_neg hch, newTag, if_neg hch, joinAll_cons]
          simp [List.append_assoc]
      · rw [if_neg hc]
        rw [ih hrest chunksT ctag (current ++ parSep ++ p)]
        have hcur2 : current ++ parSep ++ p ≠ [] :=
          append_left_ne_nil p (append_left_ne_nil parSep hc)
        rw [emitT_of_ne _ _ _ hcur2, emitT_of_ne _ _ _ hc]
        have hE1 : chunksT ++ [(ctag, current ++ parSep ++ p)] ≠ [] := by simp
        have hE2 : chunksT ++ [(ctag, current)] ≠ [] := by simp
        rw [if_neg hE1, if_neg hE2, flattenTagged_snoc, flattenTagged_snoc, joinAll_cons]
        simp [List.append_assoc]
    · rw [if_neg hfit]
      by_cases hov : maxChunkSize < p.length
      · rw [if_pos hov]
        have hss : ∀ s ∈ splitOnL sentSep p, s ≠ [] := hp.2 hov
        have hscne : split_sentences (splitOnL sentSep p) maxChunkSize ≠ [] :=
          split_sentences_ne_nil maxChunkSize _ (splitOnL_ne_nil sentSep p) hss
        have hjoin0 : joinSep sentSep (split_sentences (splitOnL sentSep p) maxChunkSize) = p := by
          rw [split_sentences_join maxChunkSize _ (splitOnL_ne_nil sentSep p) hss]
          exact joinSep_splitOnL sentSep p
        rw [ih hrest _ [] []]
        rw [emitT_nil_current]
        cases hsc : split_sentences (splitOnL sentSep p) maxChunkSize with
        | nil => exact absurd hsc hscne
        | cons c cs =>
          rw [hsc] at hjoin0
          have hBne : emitT chunksT ctag current ++ tagSent (newTag (emitT chunksT ctag current)) (c :: cs) ≠ [] := by
            rw [tagSent]
            simp
          rw [if_neg hBne, flattenTagged_append, flattenTagged_tagSent, hjoin0]
          by_cases hE : emitT chunksT ctag current = []
          · rw [if_pos hE, hE, newTag, if_pos rfl]
            rw [joinSep_cons_joinAll]
            simp [flattenTagged]
          · rw [if_neg hE, newTag, if_neg hE, joinAll_cons]
            simp [List.append_assoc]
      · rw [if_neg hov]
        have hcur : current ≠ [] := by
          intro hx
          apply hfit
          rw [hx]
          simp
          omega
        rw [ih hrest _ parSep p]
        rw [emitT_of_ne _ _ _ hp.1]
        have hEne : emitT chunksT ctag current ≠ [] := by
          rw [emitT_of_ne _ _ _ hcur]
          simp
        have hE1 : emitT chunksT ctag current ++ [(parSep, p)] ≠ [] := by simp
        rw [if_neg hE1, if_neg hEne, flattenTagged_snoc, joinAll_cons]
        simp [List.append_assoc]

/-- C1 counterexample: the message consisting of a leading blank line followed
by a short paragraph is chunked to a single chunk that has lost the leading
blank line; no insertion of boundary separators between chunks (there are
none) can reproduce the original text. -/
theorem smart_chunking_not_lossless_cex :
    smart_chunks ("\n\nHello".toList) = ["Hello".toList] ∧
    ¬ Reassembles ["Hello".toList] ("\n\nHello".toList) := by
  constructor
  · decide
  · rintro ⟨l, hmap, htags, hflat⟩
    cases l with
    | nil => exact absurd hmap (by simp)
    | cons a l2 =>
      cases l2 with
      | cons b l3 => exact absurd hmap (by simp)
      | nil =>
        obtain ⟨t, c⟩ := a
        simp at hmap
        rw [List.map_cons, List.map_nil, SepTagsOK] at htags
        have ht : t = [] := htags.1
        rw [flattenTagged_cons, flattenTagged_nil, ht, hmap] at hflat
        simp at hflat

/-- C1 amended: chunk splitting is lossless for every message whose
blank-line paragraph split has no empty segment and whose oversized
paragraphs have no empty sentence segment: the emitted chunks, reassembled
with the separators they were split off at, reproduce the message exactly.
For other messages the loop can drop separators adjacent to empty segments,
as the counterexample shows. -/
theorem smart_chunking_lossless_of_no_empty_segments (m : List Char)
    (h1 : ∀ p ∈ splitOnL parSep m, p ≠ [])
    (h2 : ∀ p ∈ splitOnL parSep m, maxChunkSize < p.length →
      ∀ s ∈ splitOnL sentSep p, s ≠ []) :
    Reassembles (smart_chunks m) m := by
  have hgood : ∀ p ∈ splitOnL parSep m, GoodPar p := fun p hp => ⟨h1 p hp, h2 p hp⟩
  refine ⟨smart_chunksT m, ?_, ?_, ?_⟩
  · unfold smart_chunksT smart_chunks
    rw [smartChunkGoT_map_snd]
    rfl
  · unfold smart_chunksT
    apply smartChunkGoT_tags
    rw [emitT_nil_current]
    trivial
  · unfold smart_chunksT
    rw [smartChunkGoT_flatten _ hgood [] [] []]
    rw [emitT_nil_current]
    rw [if_pos rfl, flattenTagged_nil, joinSep_splitOnL]
    rfl

theorem smart_chunking_lossless_witness :
    Reassembles (smart_chunks ("Hi\n\nBye".toList)) ("Hi\n\nBye".toList) :=
  smart_chunking_lossless_of_no_empty_segments ("Hi\n\nBye".toList) (by decide) (by decide)
